import Mathlib

/-!
Verification of the guacamole-server session-runtime design against its
source slice (src/libguac/include/client.h) and the design spec.

The repository slice contains only the libguac client header: the timing
constants (GUAC_SYNC_THRESHOLD, GUAC_SYNC_FREQUENCY,
GUAC_SERVER_MESSAGE_HANDLE_FREQUENCY), the guac_client_state enum, the
guac_client structure and its handler typedefs.  The instruction codec
(protocol.c) and the relay loop (client.c) are declared but not present,
so those parts are modelled from the spec, as marked on each definition.
-/

namespace Guac

/-! ### Timing constants, from src/libguac/include/client.h -/

/-- GUAC_SYNC_THRESHOLD from client.h: time in ms allowed between sync
responses before server messages stop being handled. -/
def GUAC_SYNC_THRESHOLD : Nat := 500

/-- GUAC_SYNC_FREQUENCY from client.h: interval in ms between server sync
messages. -/
def GUAC_SYNC_FREQUENCY : Nat := 5000

/-- GUAC_SERVER_MESSAGE_HANDLE_FREQUENCY from client.h: pause in ms after a
message-handler call that sent instructions. -/
def GUAC_SERVER_MESSAGE_HANDLE_FREQUENCY : Nat := 50

/-! ### Instruction codec

Modelled from the spec (section 4.1): the wire format is
elem (',' elem)* ';' where each elem is a decimal length, a '.', and then
exactly that many raw bytes.  protocol.c is not part of the source slice;
parse_next and serialize below follow the spec text. -/

/-- A wire byte.  Arguments are arbitrary byte strings, so a byte is just a
natural number (ASCII codes for the framing characters). -/
abbrev Byte := Nat

/-- Whether a byte is an ASCII decimal digit. -/
def isDigit (c : Byte) : Bool := 48 ≤ c && c ≤ 57

/-- Accumulator step when reading a decimal length left to right. -/
def decStep (v : Nat) (c : Byte) : Nat := v * 10 + (c - 48)

/-- Fueled production of the ASCII decimal digits of a number (most
significant first), prepended to an accumulator. -/
def natDigitsGo : Nat → Nat → List Byte → List Byte
  | 0, _, acc => acc
  | f + 1, n, acc =>
    if n = 0 then acc else natDigitsGo f (n / 10) ((n % 10 + 48) :: acc)

/-- ASCII decimal digits of a number, most significant first. -/
def natDigits (n : Nat) : List Byte :=
  if n = 0 then [48] else natDigitsGo n n []

/-- Modelled from the spec: serialization of one element of an instruction,
its decimal byte count, a '.', then the raw bytes. -/
def serializeElem (e : List Byte) : List Byte :=
  natDigits e.length ++ 46 :: e

/-- Modelled from the spec: serialization of the remaining elements of an
instruction, each preceded by ',', with the closing ';'. -/
def serializeTail : List (List Byte) → List Byte
  | [] => [59]
  | e :: rest => 44 :: (serializeElem e ++ serializeTail rest)

/-- Modelled from the spec: serialize(opcode, args), the opcode being
element 0 of the instruction followed by the argument elements. -/
def serializeInstr (opcode : List Byte) (args : List (List Byte)) : List Byte :=
  serializeElem opcode ++ serializeTail args

/-- Result of one parse attempt over the buffered bytes: a complete
instruction together with the unread trailing bytes, a request for more
data, or a fatal protocol error. -/
inductive ParseResult where
  | complete (elems : List (List Byte)) (rest : List Byte)
  | incomplete
  | fatal
deriving DecidableEq

/-- Internal codec mode: reading a decimal length (value so far, whether a
digit has been seen), or reading the raw bytes of an element (bytes still
owed, bytes collected so far in reverse). -/
inductive PMode where
  | num (val : Nat) (seen : Bool)
  | body (remaining : Nat) (collected : List Byte)
deriving DecidableEq

/-- Modelled from the spec: the incremental instruction parser.  The first
argument is the byte budget remaining out of the configured maximum
instruction size; every consumed byte spends one unit.  Running out of
buffered bytes yields incomplete (more I/O may complete the frame); a
frame that cannot terminate within the budget, or a malformed or negative
(non-digit) length, is fatal. -/
def parseRun : Nat → List Byte → List (List Byte) → PMode → ParseResult
  | _, [], _, _ => ParseResult.incomplete
  | 0, _ :: _, _, _ => ParseResult.fatal
  | b + 1, c :: rest, acc, PMode.num val seen =>
    if isDigit c then
      parseRun b rest acc (PMode.num (val * 10 + (c - 48)) true)
    else if c = 46 then
      if seen then
        if b ≤ val then ParseResult.fatal
        else parseRun b rest acc (PMode.body val [])
      else ParseResult.fatal
    else ParseResult.fatal
  | b + 1, c :: rest, acc, PMode.body (r + 1) col =>
    parseRun b rest acc (PMode.body r (c :: col))
  | b + 1, c :: rest, acc, PMode.body 0 col =>
    if c = 44 then parseRun b rest (acc ++ [col.reverse]) (PMode.num 0 false)
    else if c = 59 then ParseResult.complete (acc ++ [col.reverse]) rest
    else ParseResult.fatal

/-- Modelled from the spec: parse_next over the currently buffered bytes,
with the configured maximum instruction size. -/
def parseNext (maxLen : Nat) (buf : List Byte) : ParseResult :=
  parseRun maxLen buf [] (PMode.num 0 false)

/-! ### Digit helper lemmas -/

theorem natDigitsGo_append (f : Nat) :
    ∀ (n : Nat) (acc : List Byte),
      natDigitsGo f n acc = natDigitsGo f n [] ++ acc := by
  induction f with
  | zero => intro n acc; simp [natDigitsGo]
  | succ f ih =>
    intro n acc
    by_cases h : n = 0
    · simp [natDigitsGo, h]
    · simp only [natDigitsGo, h, if_false]
      rw [ih (n / 10) ((n % 10 + 48) :: acc), ih (n / 10) [(n % 10 + 48)]]
      simp

theorem natDigitsGo_digits (f : Nat) :
    ∀ (n : Nat) (acc : List Byte), (∀ c ∈ acc, isDigit c = true) →
      ∀ c ∈ natDigitsGo f n acc, isDigit c = true := by
  induction f with
  | zero => intro n acc hacc; simpa [natDigitsGo] using hacc
  | succ f ih =>
    intro n acc hacc
    by_cases h : n = 0
    · simpa [natDigitsGo, h] using hacc
    · simp only [natDigitsGo, h, if_false]
      refine ih (n / 10) ((n % 10 + 48) :: acc) ?_
      intro c hc
      rcases List.mem_cons.mp hc with hc | hc
      · subst hc; simp [isDigit]; omega
      · exact hacc c hc

theorem natDigitsGo_fold (f : Nat) :
    ∀ (n v : Nat), n ≤ f →
      List.foldl decStep v (natDigitsGo f n []) =
        v * 10 ^ (natDigitsGo f n []).length + n := by
  induction f with
  | zero =>
    intro n v hn
    have hn0 : n = 0 := Nat.le_zero.mp hn
    simp [natDigitsGo, hn0]
  | succ f ih =>
    intro n v hn
    by_cases h : n = 0
    · simp [natDigitsGo, h]
    · have hdiv : n / 10 < n := Nat.div_lt_self (Nat.pos_of_ne_zero h) (by omega)
      have hdivf : n / 10 ≤ f := by omega
      simp only [natDigitsGo, h, if_false]
      rw [natDigitsGo_append f (n / 10) [(n % 10 + 48)]]
      rw [List.foldl_append, List.length_append]
      rw [ih (n / 10) v hdivf]
      simp only [List.foldl_cons, List.foldl_nil, List.length_cons,
        List.length_nil, decStep]
      rw [pow_succ, ← Nat.mul_assoc]
      have hmod : n / 10 * 10 + n % 10 = n := by omega
      generalize v * 10 ^ (natDigitsGo f (n / 10) []).length = A
      omega

theorem natDigits_ne_nil (n : Nat) : natDigits n ≠ [] := by
  by_cases h : n = 0
  · simp [natDigits, h]
  · obtain ⟨m, rfl⟩ := Nat.exists_eq_succ_of_ne_zero h
    simp only [natDigits, h, if_false, natDigitsGo, Nat.succ_ne_zero]
    rw [natDigitsGo_append]
    simp

theorem natDigits_digits (n : Nat) : ∀ c ∈ natDigits n, isDigit c = true := by
  by_cases h : n = 0
  · intro c hc
    simp [natDigits, h] at hc
    subst hc
    decide
  · simp only [natDigits, h, if_false]
    exact natDigitsGo_digits n n [] (by intro c hc; cases hc)

theorem natDigits_fold (n : Nat) : List.foldl decStep 0 (natDigits n) = n := by
  by_cases h : n = 0
  · simp [natDigits, h]
    decide
  · simp only [natDigits, h, if_false]
    rw [natDigitsGo_fold n n 0 (Nat.le_refl n)]
    simp

/-! ### Parser stepping lemmas -/

theorem parseRun_digits :
    ∀ (ds : List Byte) (b : Nat) (buf : List Byte) (acc : List (List Byte))
      (v : Nat), (∀ c ∈ ds, isDigit c = true) → ds.length ≤ b →
      parseRun b (ds ++ buf) acc (PMode.num v true) =
        parseRun (b - ds.length) buf acc
          (PMode.num (List.foldl decStep v ds) true) := by
  intro ds
  induction ds with
  | nil => intro b buf acc v _ _; simp
  | cons d ds ih =>
    intro b buf acc v hdig hlen
    match b with
    | 0 => simp at hlen
    | b + 1 =>
      have hd : isDigit d = true := hdig d (List.mem_cons_self d ds)
      simp only [List.cons_append, parseRun, hd, if_true, List.append_eq]
      rw [ih b buf acc (v * 10 + (d - 48))
        (fun c hc => hdig c (List.mem_cons_of_mem d hc)) (by simpa using hlen)]
      simp [decStep, Nat.succ_sub_succ]

theorem parseRun_len :
    ∀ (n b : Nat) (buf : List Byte) (acc : List (List Byte)),
      (natDigits n).length ≤ b →
      parseRun b (natDigits n ++ buf) acc (PMode.num 0 false) =
        parseRun (b - (natDigits n).length) buf acc (PMode.num n true) := by
  intro n b buf acc hlen
  rcases hnd : natDigits n with _ | ⟨d, ds⟩
  · exact absurd hnd (natDigits_ne_nil n)
  · match b with
    | 0 => rw [hnd] at hlen; simp at hlen
    | b + 1 =>
      have hd : isDigit d = true := by
        apply natDigits_digits n
        rw [hnd]; exact List.mem_cons_self d ds
      simp only [List.cons_append, parseRun, hd, if_true, List.append_eq]
      rw [parseRun_digits ds b buf acc (0 * 10 + (d - 48))
        (fun c hc => by
          apply natDigits_digits n
          rw [hnd]; exact List.mem_cons_of_mem d hc)
        (by rw [hnd] at hlen; simpa using hlen)]
      have hfold : List.foldl decStep (0 * 10 + (d - 48)) ds = n := by
        have := natDigits_fold n
        rw [hnd] at this
        simpa [decStep] using this
      rw [hfold]
      simp [Nat.succ_sub_succ]

theorem parseRun_body :
    ∀ (bs : List Byte) (b : Nat) (buf : List Byte) (acc : List (List Byte))
      (col : List Byte), bs.length ≤ b →
      parseRun b (bs ++ buf) acc (PMode.body bs.length col) =
        parseRun (b - bs.length) buf acc (PMode.body 0 (bs.reverse ++ col)) := by
  intro bs
  induction bs with
  | nil => intro b buf acc col _; simp
  | cons x bs ih =>
    intro b buf acc col hlen
    match b with
    | 0 => simp at hlen
    | b + 1 =>
      simp only [List.cons_append, List.length_cons, parseRun, List.append_eq]
      rw [ih b buf acc (x :: col) (by simpa using hlen)]
      simp [Nat.succ_sub_succ, List.reverse_cons, List.append_assoc]

theorem parseRun_dot (b val : Nat) (buf : List Byte) (acc : List (List Byte)) :
    parseRun (b + 1) (46 :: buf) acc (PMode.num val true) =
      if b ≤ val then ParseResult.fatal
      else parseRun b buf acc (PMode.body val []) := by
  simp [parseRun, isDigit]

theorem parseRun_comma (b : Nat) (buf : List Byte) (acc : List (List Byte))
    (col : List Byte) :
    parseRun (b + 1) (44 :: buf) acc (PMode.body 0 col) =
      parseRun b buf (acc ++ [col.reverse]) (PMode.num 0 false) := by
  simp [parseRun]

theorem parseRun_semi (b : Nat) (buf : List Byte) (acc : List (List Byte))
    (col : List Byte) :
    parseRun (b + 1) (59 :: buf) acc (PMode.body 0 col) =
      ParseResult.complete (acc ++ [col.reverse]) buf := by
  simp [parseRun]

theorem serializeTail_length_pos (args : List (List Byte)) :
    1 ≤ (serializeTail args).length := by
  cases args <;> simp [serializeTail]

/-- Core round-trip lemma: parsing the serialized form of a nonempty element
list, followed by arbitrary trailing bytes, yields exactly those elements
and leaves the trailing bytes unread, for any budget at least the
serialized length. -/
theorem parseRun_serialize :
    ∀ (args : List (List Byte)) (e : List Byte) (acc : List (List Byte))
      (b : Nat) (trailing : List Byte),
      (serializeElem e ++ serializeTail args).length ≤ b →
      parseRun b (serializeElem e ++ (serializeTail args ++ trailing)) acc
          (PMode.num 0 false) =
        ParseResult.complete (acc ++ e :: args) trailing := by
  intro args
  induction args with
  | nil =>
    intro e acc b trailing hb
    have hse : (serializeElem e).length =
        (natDigits e.length).length + 1 + e.length := by
      simp [serializeElem]; omega
    have hst : (serializeTail ([] : List (List Byte))).length = 1 := by
      simp [serializeTail]
    rw [List.length_append, hse, hst] at hb
    have hshape : serializeElem e ++ (serializeTail ([] : List (List Byte)) ++
        trailing) = natDigits e.length ++ (46 :: (e ++ (59 :: trailing))) := by
      simp [serializeElem, serializeTail]
    rw [hshape]
    rw [parseRun_len e.length b _ acc (by omega)]
    obtain ⟨b2, hb2⟩ : ∃ m, b - (natDigits e.length).length = m + 1 :=
      ⟨b - (natDigits e.length).length - 1, by omega⟩
    rw [hb2, parseRun_dot]
    rw [if_neg (by omega)]
    rw [parseRun_body e b2 (59 :: trailing) acc [] (by omega)]
    obtain ⟨b3, hb3⟩ : ∃ m, b2 - e.length = m + 1 := ⟨b2 - e.length - 1, by omega⟩
    rw [hb3, parseRun_semi]
    simp
  | cons e2 args ih =>
    intro e acc b trailing hb
    have hse : (serializeElem e).length =
        (natDigits e.length).length + 1 + e.length := by
      simp [serializeElem]; omega
    have hst : (serializeTail (e2 :: args)).length =
        1 + ((serializeElem e2).length + (serializeTail args).length) := by
      simp [serializeTail]; omega
    rw [List.length_append, hse, hst] at hb
    have hshape : serializeElem e ++ (serializeTail (e2 :: args) ++ trailing) =
        natDigits e.length ++ (46 :: (e ++
          (44 :: (serializeElem e2 ++ (serializeTail args ++ trailing))))) := by
      simp [serializeElem, serializeTail]
    rw [hshape]
    rw [parseRun_len e.length b _ acc (by omega)]
    obtain ⟨b2, hb2⟩ : ∃ m, b - (natDigits e.length).length = m + 1 :=
      ⟨b - (natDigits e.length).length - 1, by omega⟩
    rw [hb2, parseRun_dot]
    rw [if_neg (by omega)]
    rw [parseRun_body e b2 _ acc [] (by omega)]
    obtain ⟨b3, hb3⟩ : ∃ m, b2 - e.length = m + 1 := ⟨b2 - e.length - 1, by omega⟩
    rw [hb3, parseRun_comma]
    simp only [List.append_nil, List.reverse_reverse]
    rw [ih e2 (acc ++ [e]) b3 trailing (by rw [List.length_append]; omega)]
    simp

/-- How a parse outcome changes when further bytes are appended to the
buffer: a finished instruction keeps its trailing bytes extended, anything
else is unchanged. -/
def withRest (r : ParseResult) (more : List Byte) : ParseResult :=
  match r with
  | ParseResult.complete es rest => ParseResult.complete es (rest ++ more)
  | other => other

theorem parseRun_step_digit (b : Nat) (c : Byte) (rest : List Byte)
    (acc : List (List Byte)) (val : Nat) (seen : Bool)
    (hd : isDigit c = true) :
    parseRun (b + 1) (c :: rest) acc (PMode.num val seen) =
      parseRun b rest acc (PMode.num (val * 10 + (c - 48)) true) := by
  simp [parseRun, hd]

theorem parseRun_step_dot_ok (b val : Nat) (rest : List Byte)
    (acc : List (List Byte)) (hbv : ¬b ≤ val) :
    parseRun (b + 1) (46 :: rest) acc (PMode.num val true) =
      parseRun b rest acc (PMode.body val []) := by
  simp [parseRun, isDigit, hbv]

/-- Appending more bytes to a buffer whose parse already finished (with an
instruction or fatally) does not change the outcome, beyond extending the
unread trailing bytes. -/
theorem parseRun_extend :
    ∀ (b : Nat) (buf : List Byte) (acc : List (List Byte)) (mode : PMode)
      (more : List Byte), parseRun b buf acc mode ≠ ParseResult.incomplete →
      parseRun b (buf ++ more) acc mode =
        withRest (parseRun b buf acc mode) more := by
  intro b
  induction b with
  | zero =>
    intro buf acc mode more h
    cases buf with
    | nil => simp [parseRun] at h
    | cons c rest => simp [parseRun, withRest]
  | succ b ih =>
    intro buf acc mode more h
    cases buf with
    | nil => simp [parseRun] at h
    | cons c rest =>
      cases mode with
      | num val seen =>
        by_cases hd : isDigit c = true
        · have e1 := parseRun_step_digit b c rest acc val seen hd
          have e2 := parseRun_step_digit b c (rest ++ more) acc val seen hd
          rw [e1] at h
          rw [List.cons_append, e2, e1]
          exact ih rest acc _ more h
        · by_cases hc : c = 46
          · subst hc
            cases seen with
            | false =>
              have e1 : ∀ buf2, parseRun (b + 1) (46 :: buf2) acc
                  (PMode.num val false) = ParseResult.fatal := by
                intro buf2; simp [parseRun, isDigit]
              rw [List.cons_append, e1, e1]
              rfl
            | true =>
              by_cases hbv : b ≤ val
              · have e1 : ∀ buf2, parseRun (b + 1) (46 :: buf2) acc
                    (PMode.num val true) = ParseResult.fatal := by
                  intro buf2; simp [parseRun, isDigit, hbv]
                rw [List.cons_append, e1, e1]
                rfl
              · have e1 := parseRun_step_dot_ok b val rest acc hbv
                have e2 := parseRun_step_dot_ok b val (rest ++ more) acc hbv
                rw [e1] at h
                rw [List.cons_append, e2, e1]
                exact ih rest acc _ more h
          · have e1 : ∀ buf2, parseRun (b + 1) (c :: buf2) acc
                (PMode.num val seen) = ParseResult.fatal := by
              intro buf2; cases seen <;> simp [parseRun, hd, hc]
            rw [List.cons_append, e1, e1]
            rfl
      | body r col =>
        cases r with
        | zero =>
          by_cases hc : c = 44
          · subst hc
            have e1 : ∀ buf2, parseRun (b + 1) (44 :: buf2) acc
                (PMode.body 0 col) =
                parseRun b buf2 (acc ++ [col.reverse]) (PMode.num 0 false) := by
              intro buf2; simp [parseRun]
            rw [e1] at h
            rw [List.cons_append, e1]
            exact ih rest _ _ more h
          · by_cases hs : c = 59
            · subst hs
              rw [List.cons_append, parseRun_semi, parseRun_semi]
              simp [withRest]
            · have e1 : ∀ buf2, parseRun (b + 1) (c :: buf2) acc
                  (PMode.body 0 col) = ParseResult.fatal := by
                intro buf2; simp [parseRun, hc, hs]
              rw [List.cons_append, e1, e1]
              rfl
        | succ r =>
          have e1 : ∀ buf2, parseRun (b + 1) (c :: buf2) acc
              (PMode.body (r + 1) col) =
              parseRun b buf2 acc (PMode.body r (c :: col)) := by
            intro buf2; simp [parseRun]
          rw [e1] at h
          rw [List.cons_append, e1]
          exact ih rest acc _ more h

/-- A buffer consisting only of digit bytes that is longer than the
remaining budget exhausts the maximum instruction size without reaching a
terminator, fatally. -/
theorem parseRun_digits_fatal :
    ∀ (b : Nat) (buf : List Byte) (acc : List (List Byte)) (v : Nat)
      (seen : Bool), (∀ c ∈ buf, isDigit c = true) → b < buf.length →
      parseRun b buf acc (PMode.num v seen) = ParseResult.fatal := by
  intro b
  induction b with
  | zero =>
    intro buf acc v seen hdig hlt
    cases buf with
    | nil => simp at hlt
    | cons c rest => simp [parseRun]
  | succ b ih =>
    intro buf acc v seen hdig hlt
    cases buf with
    | nil => simp at hlt
    | cons c rest =>
      have hd : isDigit c = true := hdig c (List.mem_cons_self c rest)
      simp only [parseRun, hd, if_true]
      exact ih rest acc _ true (fun x hx => hdig x (List.mem_cons_of_mem c hx))
        (by simp only [List.length_cons] at hlt; omega)

/-- Round-trip with arbitrary trailing bytes: the serialized instruction is
parsed back exactly and the trailing bytes are left unread. -/
theorem parseNext_serializeInstr (opcode : List Byte) (args : List (List Byte))
    (trailing : List Byte) (maxLen : Nat)
    (h : (serializeInstr opcode args).length ≤ maxLen) :
    parseNext maxLen (serializeInstr opcode args ++ trailing) =
      ParseResult.complete (opcode :: args) trailing := by
  unfold parseNext serializeInstr
  rw [List.append_assoc]
  have hrun := parseRun_serialize args opcode [] maxLen trailing
    (by unfold serializeInstr at h; exact h)
  simpa using hrun

/-- Round-trip with nothing buffered beyond the one instruction. -/
theorem parseNext_serializeInstr_nil (opcode : List Byte)
    (args : List (List Byte)) (maxLen : Nat)
    (h : (serializeInstr opcode args).length ≤ maxLen) :
    parseNext maxLen (serializeInstr opcode args) =
      ParseResult.complete (opcode :: args) [] := by
  have := parseNext_serializeInstr opcode args [] maxLen h
  simpa using this

/-! ### Claim theorems for the codec -/

/-- C1: for every opcode and every list of byte-string arguments (including
bytes 44 ',', 59 ';', 46 '.', and 0 NUL), parsing the serialized bytes
yields back the identical opcode (element 0) and argument list, for any
configured maximum at least the frame length; consequently serialization
is injective: distinct opcode/argument lists never serialize to the same
byte sequence. -/
theorem C1_roundtrip_injective :
    (∀ (opcode : List Byte) (args : List (List Byte)) (maxLen : Nat),
        (serializeInstr opcode args).length ≤ maxLen →
        parseNext maxLen (serializeInstr opcode args) =
          ParseResult.complete (opcode :: args) [])
    ∧ ∀ (o1 o2 : List Byte) (a1 a2 : List (List Byte)),
        serializeInstr o1 a1 = serializeInstr o2 a2 → o1 = o2 ∧ a1 = a2 := by
  constructor
  · intro opcode args maxLen h
    exact parseNext_serializeInstr_nil opcode args maxLen h
  · intro o1 o2 a1 a2 heq
    have h1 := parseNext_serializeInstr_nil o1 a1
      (serializeInstr o1 a1).length (Nat.le_refl _)
    have h2 := parseNext_serializeInstr_nil o2 a2
      (serializeInstr o2 a2).length (Nat.le_refl _)
    rw [heq] at h1
    rw [h2] at h1
    have hcons : o2 :: a2 = o1 :: a1 := by
      injection h1 with hx hy
    injection hcons with hx hy
    exact ⟨hx.symm, hy.symm⟩

/-- Witness for C1 at a concrete instruction whose single argument contains
the bytes for ',', ';' and NUL. -/
theorem C1_witness :
    parseNext 10 (serializeInstr [97] [[44, 59, 0]]) =
      ParseResult.complete [[97], [44, 59, 0]] [] :=
  C1_roundtrip_injective.1 [97] [[44, 59, 0]] 10 (by decide)

/-- C2: feeding the serialized bytes of one instruction split at any byte
offset across two reads is equivalent to feeding them whole: the first
read alone never produces an instruction or an error (the codec just
buffers and asks for more data), and once the second read completes the
buffer (possibly with further trailing bytes already buffered) the
instruction parses identically, leaving the trailing bytes for the next
frame. -/
theorem C2_split_restartability :
    ∀ (opcode : List Byte) (args : List (List Byte)) (maxLen k : Nat)
      (trailing : List Byte),
      (serializeInstr opcode args).length ≤ maxLen →
      k < (serializeInstr opcode args).length →
      parseNext maxLen ((serializeInstr opcode args).take k) =
        ParseResult.incomplete
      ∧ parseNext maxLen ((serializeInstr opcode args).take k ++
          ((serializeInstr opcode args).drop k ++ trailing)) =
        ParseResult.complete (opcode :: args) trailing := by
  intro opcode args maxLen k trailing hmax hk
  have hs : parseRun maxLen (serializeInstr opcode args) [] (PMode.num 0 false)
      = ParseResult.complete (opcode :: args) [] :=
    parseNext_serializeInstr_nil opcode args maxLen hmax
  constructor
  · rcases hp : parseNext maxLen ((serializeInstr opcode args).take k) with
      ⟨es, r⟩ | _ | _
    · exfalso
      have hext := parseRun_extend maxLen
        ((serializeInstr opcode args).take k) [] (PMode.num 0 false)
        ((serializeInstr opcode args).drop k)
        (by unfold parseNext at hp; rw [hp]; simp)
      unfold parseNext at hp
      rw [hp, List.take_append_drop, hs] at hext
      simp only [withRest] at hext
      have hdrop : (serializeInstr opcode args).drop k = [] := by
        injection hext with hx hy
        exact (List.append_eq_nil.mp hy.symm).2
      have : (serializeInstr opcode args).length ≤ k :=
        List.drop_eq_nil_iff.mp hdrop
      omega
    · rfl
    · exfalso
      have hext := parseRun_extend maxLen
        ((serializeInstr opcode args).take k) [] (PMode.num 0 false)
        ((serializeInstr opcode args).drop k)
        (by unfold parseNext at hp; rw [hp]; simp)
      unfold parseNext at hp
      rw [hp, List.take_append_drop, hs] at hext
      simp [withRest] at hext
  · unfold parseNext
    rw [← List.append_assoc, List.take_append_drop]
    exact parseNext_serializeInstr opcode args trailing maxLen hmax

/-- Witness for C2: the 4-byte instruction 1.a; split after 2 bytes. -/
theorem C2_witness :
    parseNext 4 ((serializeInstr [97] []).take 2) = ParseResult.incomplete
    ∧ parseNext 4 ((serializeInstr [97] []).take 2 ++
        ((serializeInstr [97] []).drop 2 ++ [])) =
      ParseResult.complete [[97]] [] :=
  C2_split_restartability [97] [] 4 2 [] (by decide) (by decide)

/-- C3: malformed input is rejected fatally, never as a partial
instruction: a frame starting with a non-digit byte (including 45 '-', a
negative length, or any other non-numeric length), a declared element
length too large for the frame to terminate within the configured maximum,
and a frame running past the configured maximum without its terminator all
parse to fatal. -/
theorem C3_malformed_fatal :
    (∀ (maxLen : Nat) (c : Byte) (rest : List Byte), isDigit c = false →
        parseNext maxLen (c :: rest) = ParseResult.fatal)
    ∧ (∀ (n maxLen : Nat) (rest : List Byte),
        (natDigits n).length ≤ maxLen →
        maxLen ≤ (natDigits n).length + 1 + n →
        parseNext maxLen (natDigits n ++ 46 :: rest) = ParseResult.fatal)
    ∧ (∀ (maxLen : Nat) (buf : List Byte),
        (∀ c ∈ buf, isDigit c = true) → maxLen < buf.length →
        parseNext maxLen buf = ParseResult.fatal) := by
  refine ⟨?_, ?_, ?_⟩
  · intro maxLen c rest hc
    unfold parseNext
    match maxLen with
    | 0 => simp [parseRun]
    | m + 1 =>
      by_cases h46 : c = 46
      · subst h46; simp [parseRun, isDigit]
      · simp [parseRun, hc, h46]
  · intro n maxLen rest h1 h2
    unfold parseNext
    rw [parseRun_len n maxLen _ [] h1]
    rcases hm : maxLen - (natDigits n).length with _ | m
    · simp [parseRun]
    · rw [parseRun_dot]
      rw [if_pos (by omega)]
  · intro maxLen buf hdig hlt
    exact parseRun_digits_fatal maxLen buf [] 0 false hdig hlt

/-- Witness for C3: a negative length -5.x;, the oversize length 10 in a
4-byte maximum, and three digit bytes with a 2-byte maximum. -/
theorem C3_witness :
    parseNext 10 (45 :: [53, 46, 120, 59]) = ParseResult.fatal
    ∧ parseNext 4 (natDigits 10 ++ 46 :: []) = ParseResult.fatal
    ∧ parseNext 2 [48, 48, 48] = ParseResult.fatal :=
  ⟨C3_malformed_fatal.1 10 45 [53, 46, 120, 59] (by decide),
   C3_malformed_fatal.2.1 10 4 [] (by decide) (by decide),
   C3_malformed_fatal.2.2 2 [48, 48, 48] (by decide) (by decide)⟩

/-- The concrete wire bytes of 5.mouse,1.0,3.100,3.200,1.1; as ASCII
codes. -/
def mouseInstrBytes : List Byte :=
  [53, 46, 109, 111, 117, 115, 101, 44, 49, 46, 48, 44, 51, 46, 49, 48, 48,
   44, 51, 46, 50, 48, 48, 44, 49, 46, 49, 59]

/-- The expected decoded element list: mouse, 0, 100, 200, 1 as ASCII
byte strings. -/
def mouseElems : List (List Byte) :=
  [[109, 111, 117, 115, 101], [48], [49, 48, 48], [50, 48, 48], [49]]

/-- C9: parsing the concrete bytes of 5.mouse,1.0,3.100,3.200,1.1; yields
the argument sequence mouse, 0, 100, 200, 1, whose element 0 (the head) is
the opcode mouse - the opcode is not stripped from the argument list. -/
theorem C9_mouse_instruction :
    parseNext 28 mouseInstrBytes = ParseResult.complete mouseElems []
    ∧ mouseElems.head? = some [109, 111, 117, 115, 101] := by
  constructor
  · decide
  · rfl

/-! ### Session lifecycle, relay loop and sync state machine

The guac_client_state enum and the guac_client structure come from
client.h.  The relay loop (guac_start_client) and teardown
(guac_free_client) bodies are not in the source slice, so their behaviour
is modelled from the spec (sections 4.3, 4.4, 4.5, 7): each loop iteration
reads with a bounded wait, dispatches any inbound instruction, emits a
liveness ping only from the SYNCED state on schedule, and invokes the
backend message handler only when delivery is not suspended. -/

/-- The session state enum from client.h. -/
inductive guac_client_state where
  | RUNNING
  | STOPPING
deriving DecidableEq

/-- The sync/keepalive machine state from the spec (section 4.5). -/
inductive SyncState where
  | AWAITING_SYNC
  | SYNCED
deriving DecidableEq

/-- The per-session fields the relay loop reads and writes, after the
guac_client structure of client.h (handler function pointers are
abstracted to whether a message handler was registered, which is immutable
after init). -/
structure guac_client where
  state : guac_client_state
  last_received_timestamp : Nat
  last_sent_timestamp : Nat
  sync_state : SyncState
  has_handle_messages : Bool
deriving DecidableEq

/-- What the bounded-wait read of one relay iteration produced: nothing
before the wait elapsed, an I/O failure, an inbound instruction (flagged
as the liveness-response opcode or not), or an external stop request
observed by the loop. -/
inductive ReadResult where
  | timeout
  | ioError
  | inbound (isSyncResponse : Bool)
  | stopRequest
deriving DecidableEq

/-- The environment of one relay-loop iteration: the current monotonic
time in ms, the read outcome, the status returned by the dispatched event
handler, the status returned by the message handler (0 is success), and
whether the message handler emitted outbound instructions. -/
structure StepInput where
  now : Nat
  read : ReadResult
  dispatchStatus : Int
  handlerStatus : Int
  handlerSent : Bool
deriving DecidableEq

/-- Observable actions of one relay-loop iteration and of teardown. -/
inductive RelayEvent where
  | dispatched
  | pingSent (t : Nat)
  | handlerInvoked
  | slept (ms : Nat)
  | freeHandlerCalled
  | pluginUnloaded
  | channelReleased
deriving DecidableEq

/-- Modelled from the spec: the second half of a relay iteration
(guac_start_client body, absent from the slice).  A liveness ping is
emitted only from the SYNCED state when the send interval has elapsed
(section 4.5); the backend message handler runs only if registered and
only when delivery is not suspended, i.e. unless the session is
AWAITING_SYNC with the response overdue past GUAC_SYNC_THRESHOLD; an error
status stops the session, and a message-emitting invocation is followed by
the GUAC_SERVER_MESSAGE_HANDLE_FREQUENCY pause. -/
def stepSync (s : guac_client) (i : StepInput) (evs : List RelayEvent) :
    guac_client × List RelayEvent :=
  let sync :=
    if s.sync_state = SyncState.SYNCED ∧
        s.last_sent_timestamp + GUAC_SYNC_FREQUENCY ≤ i.now then
      ({ s with
          sync_state := SyncState.AWAITING_SYNC
          last_sent_timestamp := i.now }, evs ++ [RelayEvent.pingSent i.now])
    else (s, evs)
  let s1 := sync.1
  let evs1 := sync.2
  if s1.has_handle_messages = true ∧
      ¬(s1.sync_state = SyncState.AWAITING_SYNC ∧
        s1.last_sent_timestamp + GUAC_SYNC_THRESHOLD < i.now) then
    if i.handlerStatus = 0 then
      if i.handlerSent = true then
        (s1, evs1 ++ [RelayEvent.handlerInvoked,
          RelayEvent.slept GUAC_SERVER_MESSAGE_HANDLE_FREQUENCY])
      else (s1, evs1 ++ [RelayEvent.handlerInvoked])
    else ({ s1 with state := guac_client_state.STOPPING },
      evs1 ++ [RelayEvent.handlerInvoked])
  else (s1, evs1)

/-- Modelled from the spec: one full relay-loop iteration (section 4.4).
An I/O error or an observed stop request transitions the session to
STOPPING; an inbound instruction is dispatched, updates
last_received_timestamp, and, when it is the liveness response, resolves
the outstanding ping; a dispatch error status stops the session; then sync
emission and message handling run. -/
def step (s : guac_client) (i : StepInput) : guac_client × List RelayEvent :=
  match i.read with
  | ReadResult.ioError => ({ s with state := guac_client_state.STOPPING }, [])
  | ReadResult.stopRequest =>
    ({ s with state := guac_client_state.STOPPING }, [])
  | ReadResult.timeout => stepSync s i []
  | ReadResult.inbound isSync =>
    let s1 := { s with
      last_received_timestamp := i.now
      sync_state := if isSync then SyncState.SYNCED else s.sync_state }
    if i.dispatchStatus = 0 then stepSync s1 i [RelayEvent.dispatched]
    else ({ s1 with state := guac_client_state.STOPPING },
      [RelayEvent.dispatched])

/-- Modelled from the spec: the relay loop, which checks for STOPPING at
the top of each iteration and otherwise runs one step per input. -/
def runLoop (s : guac_client) : List StepInput → guac_client × List RelayEvent
  | [] => (s, [])
  | i :: is =>
    if s.state = guac_client_state.STOPPING then (s, [])
    else
      ((runLoop (step s i).1 is).1, (step s i).2 ++ (runLoop (step s i).1 is).2)

/-- Modelled from the spec: guac_free_client, declared in client.h but not
present in the slice.  Teardown calls the backend free handler (only if
backend init completed), then unloads the plugin binding, then releases
the channel (sections 4.3 and 7). -/
def guac_free_client (initDone : Bool) : List RelayEvent :=
  if initDone then
    [RelayEvent.freeHandlerCalled, RelayEvent.pluginUnloaded,
     RelayEvent.channelReleased]
  else [RelayEvent.pluginUnloaded, RelayEvent.channelReleased]

/-- Modelled from the spec: the session as created once plugin load
succeeds, in RUNNING, synced, with both timestamps at the current time. -/
def initialClient (hm : Bool) (now : Nat) : guac_client :=
  { state := guac_client_state.RUNNING
    last_received_timestamp := now
    last_sent_timestamp := now
    sync_state := SyncState.SYNCED
    has_handle_messages := hm }

/-- Modelled from the spec: a whole session: if backend init completed the
relay loop runs to STOPPING and then teardown follows; if init never
completed, no relay loop starts and teardown skips the free handler. -/
def runSession (initDone hm : Bool) (t0 : Nat)
    (inputs : List StepInput) : List RelayEvent :=
  if initDone then
    (runLoop (initialClient hm t0) inputs).2 ++ guac_free_client true
  else guac_free_client false

/-! ### Relay loop helper lemmas -/

/-- A relay iteration never emits teardown events. -/
theorem step_no_lifecycle (s : guac_client) (i : StepInput) :
    RelayEvent.freeHandlerCalled ∉ (step s i).2 ∧
    RelayEvent.pluginUnloaded ∉ (step s i).2 := by
  rcases i with ⟨now, read, ds, hstat, sent⟩
  cases read <;> simp [step, stepSync] <;> split_ifs <;> simp

/-- The relay loop never emits teardown events. -/
theorem runLoop_no_lifecycle :
    ∀ (inputs : List StepInput) (s : guac_client),
      RelayEvent.freeHandlerCalled ∉ (runLoop s inputs).2 ∧
      RelayEvent.pluginUnloaded ∉ (runLoop s inputs).2 := by
  intro inputs
  induction inputs with
  | nil => intro s; simp [runLoop]
  | cons i is ih =>
    intro s
    by_cases hs : s.state = guac_client_state.STOPPING
    · simp [runLoop, hs]
    · simp only [runLoop, hs, if_false]
      constructor
      · intro h
        rcases List.mem_append.mp h with h | h
        · exact (step_no_lifecycle s i).1 h
        · exact (ih (step s i).1).1 h
      · intro h
        rcases List.mem_append.mp h with h | h
        · exact (step_no_lifecycle s i).2 h
        · exact (ih (step s i).1).2 h

/-- A relay iteration either leaves the session state unchanged or moves
it to STOPPING. -/
theorem step_state (s : guac_client) (i : StepInput) :
    (step s i).1.state = s.state ∨
    (step s i).1.state = guac_client_state.STOPPING := by
  rcases i with ⟨now, read, ds, hstat, sent⟩
  cases read <;> simp [step, stepSync] <;> split_ifs <;> simp

/-! ### Claim theorems for the session lifecycle and sync machine -/

/-- C4: for a session whose backend init completed, every run - however
STOPPING was reached - ends with the free handler invoked exactly once
(never during the loop), the plugin unloaded strictly after the free
handler returns, and the channel released last; if init never completed,
the free handler is never invoked. -/
theorem C4_free_exactly_once :
    ∀ (hm : Bool) (t0 : Nat) (inputs : List StepInput),
      (∃ pre, runSession true hm t0 inputs =
          pre ++ [RelayEvent.freeHandlerCalled, RelayEvent.pluginUnloaded,
            RelayEvent.channelReleased]
        ∧ RelayEvent.freeHandlerCalled ∉ pre
        ∧ RelayEvent.pluginUnloaded ∉ pre)
      ∧ RelayEvent.freeHandlerCalled ∉ runSession false hm t0 inputs := by
  intro hm t0 inputs
  constructor
  · refine ⟨(runLoop (initialClient hm t0) inputs).2, ?_, ?_, ?_⟩
    · simp [runSession, guac_free_client]
    · exact (runLoop_no_lifecycle inputs _).1
    · exact (runLoop_no_lifecycle inputs _).2
  · simp [runSession, guac_free_client]

/-- C5: while AWAITING_SYNC with the response overdue past
GUAC_SYNC_THRESHOLD, the backend message handler is not invoked even
though inbound instructions are still dispatched; as soon as the liveness
response arrives, the handler is invoked again within that same
iteration; and an overdue liveness response by itself never moves the
session out of RUNNING. -/
theorem C5_sync_suspend_resume :
    (∀ (s : guac_client) (i : StepInput),
        s.sync_state = SyncState.AWAITING_SYNC →
        s.last_sent_timestamp + GUAC_SYNC_THRESHOLD < i.now →
        (i.read = ReadResult.timeout ∨ i.read = ReadResult.inbound false) →
        i.dispatchStatus = 0 →
        RelayEvent.handlerInvoked ∉ (step s i).2)
    ∧ (∀ (s : guac_client) (i : StepInput),
        s.sync_state = SyncState.AWAITING_SYNC →
        s.last_sent_timestamp + GUAC_SYNC_THRESHOLD < i.now →
        i.read = ReadResult.inbound false → i.dispatchStatus = 0 →
        RelayEvent.dispatched ∈ (step s i).2)
    ∧ (∀ (s : guac_client) (i : StepInput),
        s.sync_state = SyncState.AWAITING_SYNC →
        i.read = ReadResult.inbound true → i.dispatchStatus = 0 →
        s.has_handle_messages = true →
        RelayEvent.handlerInvoked ∈ (step s i).2)
    ∧ (∀ (s : guac_client) (i : StepInput),
        s.sync_state = SyncState.AWAITING_SYNC →
        s.last_sent_timestamp + GUAC_SYNC_THRESHOLD < i.now →
        i.read = ReadResult.timeout →
        s.state = guac_client_state.RUNNING →
        (step s i).1.state = guac_client_state.RUNNING) := by
  refine ⟨?_, ?_, ?_, ?_⟩
  · intro s i hawait hlate hread hds
    rcases i with ⟨now, read, ds, hstat, sent⟩
    simp only at hlate hds
    rcases hread with hread | hread <;> simp only at hread <;> subst hread <;>
      simp [step, stepSync, hawait, hlate, hds]
  · intro s i hawait hlate hread hds
    rcases i with ⟨now, read, ds, hstat, sent⟩
    simp only at hlate hds hread
    subst hread
    simp [step, stepSync, hawait, hlate, hds]
  · intro s i hawait hread hds hm
    rcases i with ⟨now, read, ds, hstat, sent⟩
    simp only at hread hds
    subst hread
    simp only [step, stepSync, hds, if_pos, hm]
    split_ifs <;> simp_all
  · intro s i hawait hlate hread hrun
    rcases i with ⟨now, read, ds, hstat, sent⟩
    simp only at hlate hread
    subst hread
    simp [step, stepSync, hawait, hlate, hrun]

/-- C6: while AWAITING_SYNC, no second liveness ping is emitted in any
iteration whose read is not the liveness response - even when the send
interval has elapsed again - because pings are only emitted from the
SYNCED state. -/
theorem C6_no_duplicate_ping :
    ∀ (s : guac_client) (i : StepInput) (t : Nat),
      s.sync_state = SyncState.AWAITING_SYNC →
      i.read ≠ ReadResult.inbound true →
      RelayEvent.pingSent t ∉ (step s i).2 := by
  intro s i t hawait hread
  rcases i with ⟨now, read, ds, hstat, sent⟩
  simp only at hread
  cases read with
  | timeout =>
    simp [step, stepSync, hawait]
    split_ifs <;> simp
  | ioError => simp [step]
  | stopRequest => simp [step]
  | inbound isSync =>
    cases isSync with
    | true => exact absurd rfl hread
    | false =>
      simp only [step, stepSync]
      split_ifs <;> simp_all

/-- C8: the default timing constants are 500 ms (sync response threshold),
5000 ms (keepalive send interval) and 50 ms (post-handler pacing); the
pacing sleep follows a successful message-emitting handler invocation and
never occurs when the handler sent nothing. -/
theorem C8_timing_constants :
    GUAC_SYNC_THRESHOLD = 500 ∧ GUAC_SYNC_FREQUENCY = 5000
    ∧ GUAC_SERVER_MESSAGE_HANDLE_FREQUENCY = 50
    ∧ (∀ (s : guac_client) (i : StepInput),
        RelayEvent.handlerInvoked ∈ (step s i).2 → i.handlerStatus = 0 →
        i.handlerSent = true →
        RelayEvent.slept GUAC_SERVER_MESSAGE_HANDLE_FREQUENCY ∈ (step s i).2)
    ∧ (∀ (s : guac_client) (i : StepInput) (ms : Nat),
        i.handlerSent = false → RelayEvent.slept ms ∉ (step s i).2) := by
  refine ⟨rfl, rfl, rfl, ?_, ?_⟩
  · intro s i hmem h0 hsent
    rcases i with ⟨now, read, ds, hstat, sent⟩
    simp only at h0 hsent
    subst h0; subst hsent
    cases read with
    | ioError => simp [step] at hmem
    | stopRequest => simp [step] at hmem
    | timeout =>
      simp only [step, stepSync] at hmem ⊢
      split_ifs at hmem ⊢ <;> simp_all
    | inbound isSync =>
      simp only [step, stepSync] at hmem ⊢
      split_ifs at hmem ⊢ <;> simp_all
  · intro s i ms hsent
    rcases i with ⟨now, read, ds, hstat, sent⟩
    simp only at hsent
    subst hsent
    cases read with
    | ioError => simp [step]
    | stopRequest => simp [step]
    | timeout =>
      simp only [step, stepSync]
      split_ifs <;> simp_all
    | inbound isSync =>
      simp only [step, stepSync]
      split_ifs <;> simp_all

/-- C7: the session state has exactly the two values RUNNING and STOPPING
of the guac_client_state enum; the session is created RUNNING after
successful plugin load; no iteration ever produces RUNNING from a
non-RUNNING state (the only transition is RUNNING to STOPPING, triggered by
I/O error, a handler error status, or a stop request); and the relay loop
never leaves STOPPING. -/
theorem C7_state_transitions :
    (∀ (hm : Bool) (t0 : Nat),
        (initialClient hm t0).state = guac_client_state.RUNNING)
    ∧ (∀ st : guac_client_state,
        st = guac_client_state.RUNNING ∨ st = guac_client_state.STOPPING)
    ∧ (∀ (s : guac_client) (i : StepInput),
        (step s i).1.state = guac_client_state.RUNNING →
        s.state = guac_client_state.RUNNING)
    ∧ (∀ (s : guac_client) (inputs : List StepInput),
        s.state = guac_client_state.STOPPING →
        (runLoop s inputs).1.state = guac_client_state.STOPPING) := by
  refine ⟨?_, ?_, ?_, ?_⟩
  · intro hm t0; rfl
  · intro st
    cases st
    · exact Or.inl rfl
    · exact Or.inr rfl
  · intro s i h
    rcases step_state s i with h2 | h2
    · rw [h2] at h; exact h
    · rw [h2] at h; cases h
  · intro s inputs h
    cases inputs with
    | nil => simpa [runLoop] using h
    | cons i is => simp [runLoop, h]

/-- Witness for C7 at a concrete running client, a concrete stopped
client, and a benign timeout input. -/
theorem C7_witness :
    (⟨guac_client_state.RUNNING, 0, 0, SyncState.SYNCED, false⟩ :
        guac_client).state = guac_client_state.RUNNING
    ∧ (runLoop ⟨guac_client_state.STOPPING, 0, 0, SyncState.SYNCED, false⟩
        [⟨1, ReadResult.timeout, 0, 0, false⟩]).1.state =
      guac_client_state.STOPPING :=
  ⟨C7_state_transitions.2.2.1 ⟨guac_client_state.RUNNING, 0, 0,
      SyncState.SYNCED, false⟩ ⟨1, ReadResult.timeout, 0, 0, false⟩
      (by decide),
   C7_state_transitions.2.2.2 ⟨guac_client_state.STOPPING, 0, 0,
      SyncState.SYNCED, false⟩ [⟨1, ReadResult.timeout, 0, 0, false⟩]
      (by decide)⟩

/-- Witness for C5 at a concrete awaiting client: suspension with an
overdue response at time 501, still-running state, and resumption when the
response arrives. -/
theorem C5_witness :
    RelayEvent.handlerInvoked ∉
      (step ⟨guac_client_state.RUNNING, 0, 0, SyncState.AWAITING_SYNC, true⟩
        ⟨501, ReadResult.timeout, 0, 0, false⟩).2
    ∧ RelayEvent.handlerInvoked ∈
      (step ⟨guac_client_state.RUNNING, 0, 0, SyncState.AWAITING_SYNC, true⟩
        ⟨501, ReadResult.inbound true, 0, 0, false⟩).2
    ∧ (step ⟨guac_client_state.RUNNING, 0, 0, SyncState.AWAITING_SYNC, true⟩
        ⟨501, ReadResult.timeout, 0, 0, false⟩).1.state =
      guac_client_state.RUNNING :=
  ⟨C5_sync_suspend_resume.1 ⟨guac_client_state.RUNNING, 0, 0,
      SyncState.AWAITING_SYNC, true⟩ ⟨501, ReadResult.timeout, 0, 0, false⟩
      (by decide) (by decide) (by decide) (by decide),
   C5_sync_suspend_resume.2.2.1 ⟨guac_client_state.RUNNING, 0, 0,
      SyncState.AWAITING_SYNC, true⟩
      ⟨501, ReadResult.inbound true, 0, 0, false⟩
      (by decide) (by decide) (by decide) (by decide),
   C5_sync_suspend_resume.2.2.2 ⟨guac_client_state.RUNNING, 0, 0,
      SyncState.AWAITING_SYNC, true⟩ ⟨501, ReadResult.timeout, 0, 0, false⟩
      (by decide) (by decide) (by decide) (by decide)⟩

/-- Witness for C6 at a concrete awaiting client and a time past the send
interval. -/
theorem C6_witness :
    RelayEvent.pingSent 9999 ∉
      (step ⟨guac_client_state.RUNNING, 0, 0, SyncState.AWAITING_SYNC, true⟩
        ⟨9999, ReadResult.timeout, 0, 0, false⟩).2 :=
  C6_no_duplicate_ping ⟨guac_client_state.RUNNING, 0, 0,
    SyncState.AWAITING_SYNC, true⟩ ⟨9999, ReadResult.timeout, 0, 0, false⟩
    9999 (by decide) (by decide)

/-- Witness for C8 at a concrete synced client: the pacing sleep occurs
after a message-emitting handler call and is absent otherwise. -/
theorem C8_witness :
    RelayEvent.slept GUAC_SERVER_MESSAGE_HANDLE_FREQUENCY ∈
      (step (initialClient true 0) ⟨0, ReadResult.timeout, 0, 0, true⟩).2
    ∧ RelayEvent.slept 50 ∉
      (step (initialClient true 0) ⟨0, ReadResult.timeout, 0, 0, false⟩).2 :=
  ⟨C8_timing_constants.2.2.2.1 (initialClient true 0)
      ⟨0, ReadResult.timeout, 0, 0, true⟩ (by decide) (by decide) (by decide),
   C8_timing_constants.2.2.2.2 (initialClient true 0)
      ⟨0, ReadResult.timeout, 0, 0, false⟩ 50 (by decide)⟩

/-- C10: the default response threshold is strictly below the default send
interval, so once a whole send interval has elapsed since a ping was sent,
the suspension deadline for that ping has already passed. -/
theorem C10_threshold_lt_frequency :
    GUAC_SYNC_THRESHOLD < GUAC_SYNC_FREQUENCY
    ∧ ∀ (sent now : Nat), sent + GUAC_SYNC_FREQUENCY ≤ now →
        sent + GUAC_SYNC_THRESHOLD < now := by
  constructor
  · decide
  · intro sent now h
    unfold GUAC_SYNC_THRESHOLD GUAC_SYNC_FREQUENCY at *
    omega

/-- Witness for C10 at a ping sent at time 0 and the next send time. -/
theorem C10_witness : 0 + GUAC_SYNC_THRESHOLD < 5000 :=
  C10_threshold_lt_frequency.2 0 5000 (by decide)

end Guac
